import Mathlib

/-!
Shallow embedding of the task dependency timeline and permission engine of
`src/src/pages/SeasonDetailPage.js` (MELAMINE_TIMELINE_CLIENT).

Modelling conventions:
* Dates are natural numbers counting days; `moment(d).add(k, 'days')` becomes
  `d + k` and `isAfter` / `isBefore` become `<` on `Nat`.  Where the source
  compares at day granularity against full timestamps (`isBefore(x, 'day')`),
  a timestamp is modelled by `DateTime` carrying a day number and a
  time-of-day component; day-granularity comparison looks only at `day`.
* A JavaScript `Map` built by insertion (later `set` for the same key
  overwrites earlier ones) is modelled as an association list with a
  last-occurrence-wins lookup (`tasksByOrderGet`); the reference-timeline
  `Map`, whose keys are only ever set once (`set` is guarded by `has`), is
  modelled as an association list with fresh keys consed at the front —
  lookup behaviour is identical.
* Task statuses are the closed data-model enumeration `pending`, `completed`,
  `blocked` (stored in canonical lower case, so the source's `toLowerCase`
  on them is the identity).  Season statuses are `Open`, `On-Hold`, `Closed`,
  `Canceled`.  User roles are free-form strings compared case-insensitively,
  exactly as in the source.
-/

namespace MelamineTimeline

/-! ## Data model -/

inductive TaskStatus
  | pending
  | completed
  | blocked
deriving DecidableEq

/-- A timestamp: a day number plus a time-of-day component.  Two timestamps
are the same instant iff both components agree (ISO-string equality in the
source); day-granularity comparisons look only at `day`. -/
structure DateTime where
  day : Nat
  msOfDay : Nat
deriving DecidableEq

/-- The externally supplied planned dates (`task.computedDates`); either
component may be absent (`computedDates?.start` in the source). -/
structure ComputedDates where
  start : Option DateTime := none
  end_ : Option DateTime := none
deriving DecidableEq

structure Task where
  _id : Nat
  order : String
  precedingTasks : List String := []
  leadTime : Nat := 0
  status : TaskStatus := .pending
  responsible : List String := []
  computedDates : ComputedDates := {}
  actualCompletion : Option DateTime := none
  remarks : String := ""
deriving DecidableEq

inductive SeasonStatus
  | Open
  | OnHold
  | Closed
  | Canceled
deriving DecidableEq

structure Season where
  status : SeasonStatus
  createdAt : Nat
deriving DecidableEq

/-- `currentUser.department` is an object carrying a `name`
(`currentUser?.department?.name` in `isCellEditable`). -/
structure Department where
  name : String
deriving DecidableEq

structure User where
  role : String
  department : Department
deriving DecidableEq

/-! ## Order comparator (§ the sort in `calculateReferenceTimeline` and
`fetchSeasonDetails`): shorter `order` string first, ties by
`localeCompare`, modelled as code-point lexicographic comparison (they agree
on the plain `A`–`Z` order codes the data model uses). -/

def lexCmp : List Char → List Char → Ordering
  | [], [] => .eq
  | [], _ :: _ => .lt
  | _ :: _, [] => .gt
  | x :: xs, y :: ys =>
    if x < y then .lt
    else if y < x then .gt
    else lexCmp xs ys

/-- The comparator body shared by the three sort sites in the source:
`-1` when `a` is shorter, `1` when longer, otherwise `a.localeCompare(b)`. -/
def ordCmp (a b : String) : Ordering :=
  if a.length < b.length then .lt
  else if b.length < a.length then .gt
  else lexCmp a.data b.data

/-- `comparator(a, b) <= 0`: `a` may stay in front of `b`. -/
def ordLE (a b : String) : Bool := ordCmp a b != .gt

def insertTask (t : Task) : List Task → List Task
  | [] => [t]
  | u :: rest => if ordLE t.order u.order then t :: u :: rest else u :: insertTask t rest

/-- Stable sort of the task list by the order comparator.  The source uses
`Array.prototype.sort`, which is stable; a stable insertion sort computes the
same list for the same comparator. -/
def sortTasks : List Task → List Task
  | [] => []
  | t :: rest => insertTask t (sortTasks rest)

/-! ## Task graph lookups -/

/-- `new Map(tasks.map(task => [task.order, task]))` followed by `get`:
the last task with a given order code wins. -/
def tasksByOrderGet : List Task → String → Option Task
  | [], _ => none
  | t :: rest, c =>
    match tasksByOrderGet rest c with
    | some p => some p
    | none => if t.order = c then some t else none

/-- Association-list lookup for the reference-timeline map (keys are task
`_id`s and are only ever inserted once). -/
structure TLEntry where
  start : Nat
  end_ : Nat
deriving DecidableEq

abbrev TL := List (Nat × TLEntry)

def lookupTL : TL → Nat → Option TLEntry
  | [], _ => none
  | (k, e) :: rest, id => if k = id then some e else lookupTL rest id

/-! ## Reference timeline calculator (`calculateReferenceTimeline`) -/

/-- The inner predecessor scan of one task: starting from
`maxPrecedingEndDate = moment(seasonCreationDate)`, walk `precedingTasks`;
a code that does not resolve (`tasksByOrder.get` misses) or whose task has
no timeline entry yet makes the task uncalculable (`none`); otherwise keep
the running maximum of the predecessors' end dates
(`if isAfter then update`). -/
def maxPredEnd (tasks : List Task) (tl : TL) : List String → Nat → Option Nat
  | [], acc => some acc
  | c :: cs, acc =>
    match tasksByOrderGet tasks c with
    | none => none
    | some p =>
      match lookupTL tl p._id with
      | none => none
      | some e => maxPredEnd tasks tl cs (if acc < e.end_ then e.end_ else acc)

/-- One `sortedTasks.forEach` pass: skip tasks already in the timeline,
otherwise try to calculate; on success insert
`{start, end: start + leadTime days}` and count it
(`processedInThisIteration`).  Insertions made earlier in the same pass are
visible to later tasks of the pass, as in the source. -/
def passFold (tasks : List Task) (createdAt : Nat) : List Task → TL → Nat → TL × Nat
  | [], tl, cnt => (tl, cnt)
  | t :: rest, tl, cnt =>
    match lookupTL tl t._id with
    | some _ => passFold tasks createdAt rest tl cnt
    | none =>
      match maxPredEnd tasks tl t.precedingTasks createdAt with
      | none => passFold tasks createdAt rest tl cnt
      | some s => passFold tasks createdAt rest ((t._id, ⟨s, s + t.leadTime⟩) :: tl) (cnt + 1)

/-- The `while (tasksToProcess > 0 && iterations < MAX_ITERATIONS)` loop;
`fuel` is the number of passes still allowed (`MAX_ITERATIONS - iterations`).
After a pass, `tasksToProcess -= processed`; a pass with zero progress while
tasks remain breaks out with the timeline as computed so far. -/
def timelineLoop (tasks sorted : List Task) (createdAt : Nat) : Nat → Nat → TL → TL
  | 0, _, tl => tl
  | fuel + 1, tasksToProcess, tl =>
    if tasksToProcess = 0 then tl
    else
      let r := passFold tasks createdAt sorted tl 0
      if r.2 = 0 then r.1
      else timelineLoop tasks sorted createdAt fuel (tasksToProcess - r.2) r.1

/-- `calculateReferenceTimeline` with an explicit iteration bound (the source
fixes it to `tasksToProcess + 5`). -/
def calculateReferenceTimelineFuel (tasks : List Task) (seasonCreationDate : Nat)
    (fuel : Nat) : TL :=
  if tasks.isEmpty then []
  else
    let sorted := sortTasks tasks
    timelineLoop tasks sorted seasonCreationDate fuel sorted.length []

/-- `calculateReferenceTimeline(tasks, seasonCreationDate)`:
`MAX_ITERATIONS = tasks.length + 5`. -/
def calculateReferenceTimeline (tasks : List Task) (seasonCreationDate : Nat) : TL :=
  calculateReferenceTimelineFuel tasks seasonCreationDate (tasks.length + 5)

/-! ## Specification-side descriptions of the resolver -/

/-- The end dates of a task's predecessors as recorded in a timeline map:
`some ends` iff every preceding code resolves to a task that has an entry. -/
def endsOf (tasks : List Task) (tl : TL) : List String → Option (List Nat)
  | [] => some []
  | c :: cs =>
    match tasksByOrderGet tasks c with
    | none => none
    | some p =>
      match lookupTL tl p._id with
      | none => none
      | some e => (endsOf tasks tl cs).map (fun l => e.end_ :: l)

/-- A timeline entry is correct for task `t` relative to map `tl`: every
predecessor resolves with ends `ends`, `start` is the maximum of the season
creation date and those ends, and `end = start + leadTime`. -/
def EntryCorrect (tasks : List Task) (createdAt : Nat) (tl : TL) (t : Task) (e : TLEntry) : Prop :=
  ∃ ends, endsOf tasks tl t.precedingTasks = some ends ∧
    e.start = ends.foldl max createdAt ∧
    e.end_ = e.start + t.leadTime

/-- Well-formed timeline maps: built by consing entries whose key is fresh and
whose dates are correct relative to the earlier (deeper) part of the map. -/
inductive WF (tasks : List Task) (createdAt : Nat) : TL → Prop
  | nil : WF tasks createdAt []
  | cons {t : Task} {e : TLEntry} {tl : TL} :
      t ∈ tasks →
      lookupTL tl t._id = none →
      EntryCorrect tasks createdAt tl t e →
      WF tasks createdAt tl →
      WF tasks createdAt ((t._id, e) :: tl)

/-- A task is fully resolvable: every preceding code resolves (last-wins
lookup by order) to a task that is itself fully resolvable.  This is the
least fixed point; members of precedence cycles, tasks naming dangling
codes, and tasks transitively depending on either admit no derivation. -/
inductive Resolvable (tasks : List Task) : Task → Prop
  | intro {t : Task} :
      (∀ c ∈ t.precedingTasks, (tasksByOrderGet tasks c).isSome) →
      (∀ c ∈ t.precedingTasks, ∀ p, tasksByOrderGet tasks c = some p → Resolvable tasks p) →
      Resolvable tasks t

/-- A set of tasks none of which can ever be resolved: each member has some
preceding code all of whose resolutions (possibly none — the dangling case)
stay inside the set. -/
def Stuck (tasks : List Task) (S : List Task) : Prop :=
  ∀ t ∈ S, ∃ c ∈ t.precedingTasks, ∀ p ∈ tasks, p.order = c → p ∈ S

/-- No unresolved task of `sorted` is calculable against `tl`. -/
def Saturated (tasks : List Task) (createdAt : Nat) (sorted : List Task) (tl : TL) : Prop :=
  ∀ t ∈ sorted, lookupTL tl t._id = none →
    maxPredEnd tasks tl t.precedingTasks createdAt = none

/-- Number of tasks of `l` that have no entry in `tl` (the quantity the
source tracks as `tasksToProcess`). -/
def uOver (tl : TL) (l : List Task) : Nat :=
  (l.filter (fun t => (lookupTL tl t._id).isNone)).length

/-- `.toLowerCase()` on the role/department strings, written structurally
over the character list. -/
def strToLower (s : String) : String := ⟨s.data.map Char.toLower⟩

/-! ## Actionability evaluator (`isTaskActionable`) -/

def isTaskActionable (task : Task) (allTasks : List Task) : Bool :=
  if task.status == TaskStatus.completed || task.status == TaskStatus.blocked then false
  else if task.precedingTasks.isEmpty then true
  else
    task.precedingTasks.all (fun precedingTaskOrder =>
      match allTasks.find? (fun t => t.order == precedingTaskOrder) with
      | some precedingTask => precedingTask.status == TaskStatus.completed
      | none => false)

/-! ## Edit gate on the action button (`handleEditClick`) -/

inductive EditDecision
  | allow
  | denyCompletedLocked
  | denyBlocked
  | denyPredecessorsIncomplete
  | denyNotResponsible
deriving DecidableEq

/-- The predecessor scan of `handleEditClick`: `predecessorsDone` starts
`true` and is cleared when some code resolves (`tasksMap.get`) to a task
whose status is not `completed`.  A code that resolves to no task is
skipped — it does not clear the flag. -/
def predecessorsDone (taskList : List Task) (task : Task) : Bool :=
  task.precedingTasks.all (fun predOrder =>
    match tasksByOrderGet taskList predOrder with
    | some predecessor => !(predecessor.status != TaskStatus.completed)
    | none => true)

/-- Models `task.responsible.includes(currentUser?.department)`: the source
compares the string entries of `responsible` against the department *object*
(`{name: …}`, cf. `currentUser?.department?.name` in `isCellEditable`) with
strict equality, which never holds. -/
def includesDepartment (_responsible : List String) (_d : Department) : Bool := false

/-- The guard sequence of `handleEditClick`, as a pure decision (each deny is
the source's early `return` with the corresponding alert). -/
def handleEditClick (u : User) (taskList : List Task) (task : Task) : EditDecision :=
  let isAdminOrPlanner := strToLower u.role == "admin" || strToLower u.role == "planner"
  if task.status == TaskStatus.completed && !isAdminOrPlanner then .denyCompletedLocked
  else if task.status == TaskStatus.blocked then .denyBlocked
  else if task.status == TaskStatus.pending && !(predecessorsDone taskList task) then
    .denyPredecessorsIncomplete
  else if !isAdminOrPlanner && !(includesDepartment task.responsible u.department) then
    .denyNotResponsible
  else .allow

/-! ## Cell editability (`isCellEditable`) -/

def isCellEditable (authLoading : Bool) (currentUser : Option User)
    (seasonDetails : Option Season) (row : Task) : Bool :=
  match currentUser, seasonDetails with
  | some u, some season =>
    if authLoading then false
    else if season.status != SeasonStatus.Open then false
    else
      let isAdminOrPlanner := strToLower u.role == "admin" || strToLower u.role == "planner"
      if row.status == TaskStatus.completed && !isAdminOrPlanner then false
      else
        isAdminOrPlanner ||
          (row.responsible.map strToLower).contains (strToLower u.department.name)
  | _, _ => false

/-! ## Edit transition validator (`handleProcessRowUpdate`) -/

/-- The `apiPayload` object: a key is absent (`none`) when the field did not
change; `actualCompletion` may be present with value null (`some none`). -/
structure RowPatch where
  remarks : Option String := none
  actualCompletion : Option (Option DateTime) := none
  status : Option TaskStatus := none
deriving DecidableEq

/-- Outcome of `handleProcessRowUpdate` up to the persistence boundary:
`rejectInvalidCompletionDate` is the `Promise.reject(new Error('Invalid
date'))` path (with its alert), `noop` the `return oldRow` on an empty
payload (no API call), `submit` the `updateTaskInSeason` call with the
assembled payload. -/
inductive UpdateOutcome
  | rejectInvalidCompletionDate
  | noop
  | submit (payload : RowPatch)
deriving DecidableEq

/-- `newCompletion && newRow.computedDates?.start &&
moment(newCompletion).isBefore(moment(newRow.computedDates.start), 'day')`. -/
def completionBeforeStartDay : Option DateTime → Option DateTime → Bool
  | some newC, some startD => newC.day < startD.day
  | _, _ => false

/-- `if (newRow.remarks !== oldRow.remarks) apiPayload.remarks = newRow.remarks`. -/
def diffRemarks (newRow oldRow : Task) : Option String :=
  if newRow.remarks != oldRow.remarks then some newRow.remarks else none

/-- `if (newCompletion !== oldCompletion) apiPayload.actualCompletion =
newCompletion` (the value set may itself be null: `some none`). -/
def diffCompletion (newRow oldRow : Task) : Option (Option DateTime) :=
  if newRow.actualCompletion != oldRow.actualCompletion then some newRow.actualCompletion else none

/-- `if (apiPayload.actualCompletion && newRow.status !== 'completed')
apiPayload.status = 'completed'` — the payload's completion key must be
present *and* non-null (null is falsy). -/
def derivedStatus (newRow oldRow : Task) : Option TaskStatus :=
  if ((diffCompletion newRow oldRow).getD none).isSome &&
      newRow.status != TaskStatus.completed then
    some TaskStatus.completed
  else none

/-- The `apiPayload` object as assembled by `handleProcessRowUpdate`. -/
def apiPayload (newRow oldRow : Task) : RowPatch :=
  { remarks := diffRemarks newRow oldRow
    actualCompletion := diffCompletion newRow oldRow
    status := derivedStatus newRow oldRow }

/-- The pure validation/diff core of `handleProcessRowUpdate(newRow, oldRow)`.
`moment(x).toISOString()` normalisation maps equal instants to equal strings
and is modelled as the identity on `Option DateTime`.  The payload is empty
(`Object.keys(apiPayload).length === 0`) iff neither the remarks key nor the
completion key is present — the status key is only ever set alongside the
completion key. -/
def handleProcessRowUpdate (newRow oldRow : Task) : UpdateOutcome :=
  if newRow.actualCompletion != oldRow.actualCompletion &&
      completionBeforeStartDay newRow.actualCompletion newRow.computedDates.start then
    .rejectInvalidCompletionDate
  else if (apiPayload newRow oldRow).remarks == none &&
      (apiPayload newRow oldRow).actualCompletion == none then .noop
  else .submit (apiPayload newRow oldRow)

/-! # Theorems -/

/-- Helper: `completionBeforeStartDay` is false whenever the planned start is
absent. -/
theorem completionBeforeStartDay_none (x : Option DateTime) :
    completionBeforeStartDay x none = false := by
  cases x <;> rfl

/-- Helper: `handleProcessRowUpdate` rejects exactly when the completion
changed and falls (at day granularity) before the present planned start. -/
theorem handleProcessRowUpdate_reject_iff (newRow oldRow : Task) :
    handleProcessRowUpdate newRow oldRow = UpdateOutcome.rejectInvalidCompletionDate ↔
      ((newRow.actualCompletion != oldRow.actualCompletion) &&
        completionBeforeStartDay newRow.actualCompletion newRow.computedDates.start) = true := by
  by_cases hcond : ((newRow.actualCompletion != oldRow.actualCompletion) &&
      completionBeforeStartDay newRow.actualCompletion newRow.computedDates.start) = true
  · simp [handleProcessRowUpdate, hcond]
  · have hf : ((newRow.actualCompletion != oldRow.actualCompletion) &&
        completionBeforeStartDay newRow.actualCompletion newRow.computedDates.start) = false := by
      simpa using hcond
    simp only [handleProcessRowUpdate, hf, Bool.false_eq_true, if_false]
    constructor
    · intro hcon
      split at hcon <;> cases hcon
    · intro hcon
      exact hcon.elim

/-- C3: `isTaskActionable` is false for completed and blocked tasks; true for
pending tasks with no predecessors; and for pending tasks it is true iff
every predecessor code resolves (first match by order) to a completed task,
unresolvable codes making it false. -/
theorem claim3 (task : Task) (allTasks : List Task) :
    ((task.status = TaskStatus.completed ∨ task.status = TaskStatus.blocked) →
      isTaskActionable task allTasks = false) ∧
    (task.status = TaskStatus.pending → task.precedingTasks = [] →
      isTaskActionable task allTasks = true) ∧
    (task.status = TaskStatus.pending →
      (isTaskActionable task allTasks = true ↔
        ∀ c ∈ task.precedingTasks, ∃ p, allTasks.find? (fun t => t.order == c) = some p ∧
          p.status = TaskStatus.completed)) := by
  refine ⟨?_, ?_, ?_⟩
  · rintro (h | h) <;> simp [isTaskActionable, h]
  · intro h hp
    simp [isTaskActionable, h, hp]
  · intro h
    have key : isTaskActionable task allTasks = task.precedingTasks.all (fun c =>
        match allTasks.find? (fun t => t.order == c) with
        | some p => p.status == TaskStatus.completed
        | none => false) := by
      cases hp : task.precedingTasks <;> simp [isTaskActionable, h, hp]
    rw [key, List.all_eq_true]
    constructor
    · intro hall c hc
      have hcw := hall c hc
      cases hf : allTasks.find? (fun t => t.order == c) with
      | none => rw [hf] at hcw; simp at hcw
      | some p =>
        rw [hf] at hcw
        simp only [beq_iff_eq] at hcw
        exact ⟨p, rfl, hcw⟩
    · intro hex c hc
      obtain ⟨p, hf, hs⟩ := hex c hc
      rw [hf]
      simp [hs]

/-- C3 witness: concrete evaluations through `claim3`. -/
theorem claim3_witness :
    isTaskActionable { _id := 1, order := "A", status := TaskStatus.blocked } [] = false ∧
    isTaskActionable { _id := 1, order := "A" } [] = true := by
  constructor
  · exact (claim3 { _id := 1, order := "A", status := TaskStatus.blocked } []).1 (Or.inr rfl)
  · exact (claim3 { _id := 1, order := "A" } []).2.1 rfl rfl

/-- C4: `isCellEditable` denies every edit when the season status is not
`Open`, for every actor (any role, any department), any task, and whether or
not authentication is still loading: the season-state guard precedes every
other rule. -/
theorem claim4 (authLoading : Bool) (u : User) (s : Season) (row : Task)
    (h : s.status ≠ SeasonStatus.Open) :
    isCellEditable authLoading (some u) (some s) row = false := by
  have hb : (s.status != SeasonStatus.Open) = true := by
    simp [bne_iff_ne, h]
  cases authLoading <;> simp [isCellEditable, hb]

/-- C4 witness: an admin in a responsible department is still denied in a
closed season. -/
theorem claim4_witness :
    isCellEditable false (some ⟨"Admin", ⟨"IT"⟩⟩) (some ⟨SeasonStatus.Closed, 0⟩)
      { _id := 1, order := "A", responsible := ["IT"] } = false :=
  claim4 false ⟨"Admin", ⟨"IT"⟩⟩ ⟨SeasonStatus.Closed, 0⟩
    { _id := 1, order := "A", responsible := ["IT"] } (by decide)

/-- C5: `handleEditClick` denies every edit of a blocked task with the
`Blocked` reason, for every actor including admins and planners. -/
theorem claim5 (u : User) (taskList : List Task) (task : Task)
    (h : task.status = TaskStatus.blocked) :
    handleEditClick u taskList task = EditDecision.denyBlocked := by
  simp [handleEditClick, h]

/-- C5 witness: an admin is denied on a blocked task. -/
theorem claim5_witness :
    handleEditClick ⟨"Admin", ⟨"IT"⟩⟩ []
      { _id := 1, order := "A", status := TaskStatus.blocked } = EditDecision.denyBlocked :=
  claim5 ⟨"Admin", ⟨"IT"⟩⟩ [] { _id := 1, order := "A", status := TaskStatus.blocked } rfl

/-- C6 counterexample: a pending task whose single predecessor code `"A"`
resolves to no task in the list is not actionable (`isTaskActionable` is
fail-closed), yet `handleEditClick` lets an admin through: the dangling code
is skipped by its predecessor scan, so no `PredecessorsIncomplete` denial
occurs. -/
theorem claim6_counterexample :
    handleEditClick ⟨"Admin", ⟨"IT"⟩⟩
      [{ _id := 1, order := "B", precedingTasks := ["A"] }]
      { _id := 1, order := "B", precedingTasks := ["A"] } = EditDecision.allow ∧
    isTaskActionable { _id := 1, order := "B", precedingTasks := ["A"] }
      [{ _id := 1, order := "B", precedingTasks := ["A"] }] = false := by
  decide

/-- C6 (amended): for a pending task, `handleEditClick` denies with
`PredecessorsIncomplete` iff some predecessor code resolves (last match by
order) to a task whose status is not completed; codes that resolve to no
task are skipped, so a task whose only unmet predecessors are dangling codes
is not denied for predecessors even though `isTaskActionable` deems it not
actionable. -/
theorem claim6 (u : User) (taskList : List Task) (task : Task)
    (h : task.status = TaskStatus.pending) :
    handleEditClick u taskList task = EditDecision.denyPredecessorsIncomplete ↔
      ∃ c ∈ task.precedingTasks, ∃ p, tasksByOrderGet taskList c = some p ∧
        p.status ≠ TaskStatus.completed := by
  have hdone : (predecessorsDone taskList task = false) ↔
      ∃ c ∈ task.precedingTasks, ∃ p, tasksByOrderGet taskList c = some p ∧
        p.status ≠ TaskStatus.completed := by
    rw [predecessorsDone, Bool.eq_false_iff, ne_eq, List.all_eq_true]
    push_neg
    refine exists_congr fun c => and_congr_right fun _ => ?_
    cases hg : tasksByOrderGet taskList c with
    | none => simp [hg]
    | some p => simp [hg, bne_iff_ne]
  have e1 : (TaskStatus.pending == TaskStatus.completed) = false := rfl
  have e2 : (TaskStatus.pending == TaskStatus.blocked) = false := rfl
  have e3 : (TaskStatus.pending == TaskStatus.pending) = true := rfl
  cases hpd : predecessorsDone taskList task with
  | false =>
    have hdec : handleEditClick u taskList task = EditDecision.denyPredecessorsIncomplete := by
      simp [handleEditClick, h, hpd, e1, e2, e3]
    simp [hdec, hdone.mp hpd]
  | true =>
    have hdec : handleEditClick u taskList task ≠ EditDecision.denyPredecessorsIncomplete := by
      have e4 : includesDepartment task.responsible u.department = false := rfl
      by_cases ha : (strToLower u.role == "admin" || strToLower u.role == "planner") = true
      · simp [handleEditClick, h, hpd, e1, e2, e3, ha]
      · have hb : (strToLower u.role == "admin" || strToLower u.role == "planner") = false := by
          simpa using ha
        simp [handleEditClick, h, hpd, e1, e2, e3, hb, e4]
    constructor
    · intro hcon; exact absurd hcon hdec
    · intro hex
      have hf := hdone.mpr hex
      rw [hpd] at hf
      cases hf

/-- C6 amended witness: a pending task whose predecessor resolves to a
non-completed task is denied with `PredecessorsIncomplete`. -/
theorem claim6_witness :
    handleEditClick ⟨"Admin", ⟨"IT"⟩⟩
      [{ _id := 1, order := "A" }, { _id := 2, order := "B", precedingTasks := ["A"] }]
      { _id := 2, order := "B", precedingTasks := ["A"] } =
        EditDecision.denyPredecessorsIncomplete :=
  (claim6 ⟨"Admin", ⟨"IT"⟩⟩
      [{ _id := 1, order := "A" }, { _id := 2, order := "B", precedingTasks := ["A"] }]
      { _id := 2, order := "B", precedingTasks := ["A"] } rfl).mpr
    ⟨"A", by decide, { _id := 1, order := "A" }, by decide, by decide⟩

/-- C7: if `actualCompletion` changed to a non-null value and the planned
start is present, `handleProcessRowUpdate` rejects with
`InvalidCompletionDate` exactly when the new value's day precedes the start's
day; otherwise (equal day included) it submits a payload carrying the new
completion, and if the task is not already completed the payload also
carries the derived `status = completed` transition. -/
theorem claim7 (newRow oldRow : Task) (c startD : DateTime)
    (hc : newRow.actualCompletion = some c)
    (hch : newRow.actualCompletion ≠ oldRow.actualCompletion)
    (hst : newRow.computedDates.start = some startD) :
    (c.day < startD.day →
      handleProcessRowUpdate newRow oldRow = UpdateOutcome.rejectInvalidCompletionDate) ∧
    (¬ c.day < startD.day →
      ∃ payload, handleProcessRowUpdate newRow oldRow = UpdateOutcome.submit payload ∧
        payload.actualCompletion = some (some c) ∧
        (newRow.status ≠ TaskStatus.completed → payload.status = some TaskStatus.completed)) := by
  have hbne : (newRow.actualCompletion != oldRow.actualCompletion) = true := by
    simp [bne_iff_ne, hch]
  constructor
  · intro hlt
    have hbefore : completionBeforeStartDay newRow.actualCompletion newRow.computedDates.start
        = true := by
      rw [hc, hst]
      simpa [completionBeforeStartDay] using hlt
    simp [handleProcessRowUpdate, hbne, hbefore]
  · intro hge
    have hbefore : completionBeforeStartDay newRow.actualCompletion newRow.computedDates.start
        = false := by
      rw [hc, hst]
      simpa [completionBeforeStartDay] using hge
    have hcf : (apiPayload newRow oldRow).actualCompletion = some newRow.actualCompletion := by
      simp [apiPayload, diffCompletion, hbne]
    refine ⟨apiPayload newRow oldRow, ?_, ?_, ?_⟩
    · simp [handleProcessRowUpdate, hbne, hbefore, hcf]
    · rw [hcf, hc]
    · intro hstat
      have hb : (newRow.status != TaskStatus.completed) = true := by
        simpa [bne_iff_ne] using hstat
      have hch2 : ¬ some c = oldRow.actualCompletion := hc ▸ hch
      simp [apiPayload, derivedStatus, diffCompletion, hbne, hb, hc, hch2]

/-- C7 witness: equal-day completion on a pending task is accepted and the
payload derives `status = completed`. -/
theorem claim7_witness :
    ∃ payload,
      handleProcessRowUpdate
        { _id := 1, order := "A", actualCompletion := some ⟨5, 0⟩,
          computedDates := { start := some ⟨5, 0⟩ } }
        { _id := 1, order := "A", computedDates := { start := some ⟨5, 0⟩ } } =
          UpdateOutcome.submit payload ∧
      payload.actualCompletion = some (some ⟨5, 0⟩) ∧
      (({ _id := 1, order := "A", actualCompletion := some ⟨5, 0⟩,
          computedDates := { start := some ⟨5, 0⟩ } } : Task).status ≠ TaskStatus.completed →
        payload.status = some TaskStatus.completed) :=
  (claim7
    { _id := 1, order := "A", actualCompletion := some ⟨5, 0⟩,
      computedDates := { start := some ⟨5, 0⟩ } }
    { _id := 1, order := "A", computedDates := { start := some ⟨5, 0⟩ } }
    ⟨5, 0⟩ ⟨5, 0⟩ rfl (by decide) rfl).2 (by decide)

/-- C9: when neither `remarks` nor `actualCompletion` changed, the diff is
empty and `handleProcessRowUpdate` is a no-op success: it returns the old
row, makes no persistence call and raises no error. -/
theorem claim9 (newRow oldRow : Task)
    (hr : newRow.remarks = oldRow.remarks)
    (hc : newRow.actualCompletion = oldRow.actualCompletion) :
    handleProcessRowUpdate newRow oldRow = UpdateOutcome.noop := by
  simp [handleProcessRowUpdate, apiPayload, diffRemarks, diffCompletion, hr, hc]

/-- C9 witness. -/
theorem claim9_witness :
    handleProcessRowUpdate
      { _id := 1, order := "A", remarks := "r", actualCompletion := some ⟨3, 0⟩,
        computedDates := { start := some ⟨9, 0⟩ } }
      { _id := 1, order := "A", remarks := "r", actualCompletion := some ⟨3, 0⟩ } =
      UpdateOutcome.noop :=
  claim9
    { _id := 1, order := "A", remarks := "r", actualCompletion := some ⟨3, 0⟩,
      computedDates := { start := some ⟨9, 0⟩ } }
    { _id := 1, order := "A", remarks := "r", actualCompletion := some ⟨3, 0⟩ } rfl rfl

/-- C10: when `computedDates.start` is absent, the completion-before-start
validation is skipped entirely: `handleProcessRowUpdate` never rejects with
`InvalidCompletionDate`, and any changed `actualCompletion` is put into the
submitted payload unchecked. -/
theorem claim10 (newRow oldRow : Task) (hst : newRow.computedDates.start = none) :
    handleProcessRowUpdate newRow oldRow ≠ UpdateOutcome.rejectInvalidCompletionDate ∧
    (newRow.actualCompletion ≠ oldRow.actualCompletion →
      ∃ payload, handleProcessRowUpdate newRow oldRow = UpdateOutcome.submit payload ∧
        payload.actualCompletion = some newRow.actualCompletion) := by
  have hbefore : completionBeforeStartDay newRow.actualCompletion newRow.computedDates.start
      = false := by
    rw [hst]
    exact completionBeforeStartDay_none _
  constructor
  · rw [Ne, handleProcessRowUpdate_reject_iff, hbefore]
    simp
  · intro hch
    have hbne : (newRow.actualCompletion != oldRow.actualCompletion) = true := by
      simp [bne_iff_ne, hch]
    have hcf : (apiPayload newRow oldRow).actualCompletion = some newRow.actualCompletion := by
      simp [apiPayload, diffCompletion, hbne]
    refine ⟨apiPayload newRow oldRow, ?_, hcf⟩
    simp [handleProcessRowUpdate, hbne, hbefore, hcf]

/-- C10 witness: a completion date one day before the (absent) start is
accepted. -/
theorem claim10_witness :
    handleProcessRowUpdate { _id := 1, order := "A", actualCompletion := some ⟨0, 0⟩ }
        { _id := 1, order := "A" } ≠ UpdateOutcome.rejectInvalidCompletionDate ∧
    (({ _id := 1, order := "A", actualCompletion := some ⟨0, 0⟩ } : Task).actualCompletion ≠
        ({ _id := 1, order := "A" } : Task).actualCompletion →
      ∃ payload,
        handleProcessRowUpdate { _id := 1, order := "A", actualCompletion := some ⟨0, 0⟩ }
          { _id := 1, order := "A" } = UpdateOutcome.submit payload ∧
        payload.actualCompletion =
          some ({ _id := 1, order := "A", actualCompletion := some ⟨0, 0⟩ } : Task).actualCompletion) :=
  claim10 { _id := 1, order := "A", actualCompletion := some ⟨0, 0⟩ }
    { _id := 1, order := "A" } rfl

/-- C8: the order comparator puts a shorter code before a longer one and
breaks equal-length ties lexicographically; sorting tasks carrying the codes
`["Z","AA","B","A"]` yields the display order `["A","B","Z","AA"]`. -/
theorem claim8 :
    (∀ a b : String, a.length < b.length → ordCmp a b = Ordering.lt) ∧
    (∀ a b : String, a.length = b.length → ordCmp a b = lexCmp a.data b.data) ∧
    (sortTasks [{ _id := 1, order := "Z" }, { _id := 2, order := "AA" },
        { _id := 3, order := "B" }, { _id := 4, order := "A" }]).map (fun t => t.order) =
      ["A", "B", "Z", "AA"] := by
  refine ⟨?_, ?_, by decide⟩
  · intro a b hlt
    simp [ordCmp, hlt]
  · intro a b heq
    simp [ordCmp, heq]

/-- C8 witness: concrete comparator evaluations through `claim8`. -/
theorem claim8_witness :
    ordCmp "B" "AA" = Ordering.lt ∧ ordCmp "B" "A" = lexCmp "B".data "A".data :=
  ⟨claim8.1 "B" "AA" (by decide), claim8.2.1 "B" "A" rfl⟩

/-! ## Lemmas about the task-graph lookups and the sort -/

theorem tasksByOrderGet_mem {tasks : List Task} {c : String} {p : Task}
    (h : tasksByOrderGet tasks c = some p) : p ∈ tasks ∧ p.order = c := by
  induction tasks with
  | nil => cases h
  | cons t rest ih =>
    rw [tasksByOrderGet] at h
    cases hg : tasksByOrderGet rest c with
    | some q =>
      rw [hg] at h
      cases h
      have := ih hg
      exact ⟨List.mem_cons_of_mem _ this.1, this.2⟩
    | none =>
      rw [hg] at h
      by_cases ht : t.order = c
      · rw [if_pos ht] at h
        injection h with hp
        subst hp
        exact ⟨List.mem_cons_self _ _, ht⟩
      · rw [if_neg ht] at h
        cases h

theorem insertTask_perm (t : Task) (l : List Task) : (insertTask t l).Perm (t :: l) := by
  induction l with
  | nil => exact List.Perm.refl _
  | cons u rest ih =>
    rw [insertTask]
    split
    · exact List.Perm.refl _
    · exact (ih.cons u).trans (List.Perm.swap t u rest)

theorem sortTasks_perm (l : List Task) : (sortTasks l).Perm l := by
  induction l with
  | nil => exact List.Perm.refl _
  | cons t rest ih =>
    exact (insertTask_perm t (sortTasks rest)).trans (ih.cons t)

theorem mem_sortTasks {t : Task} {l : List Task} : t ∈ sortTasks l ↔ t ∈ l :=
  (sortTasks_perm l).mem_iff

theorem length_sortTasks (l : List Task) : (sortTasks l).length = l.length :=
  (sortTasks_perm l).length_eq

theorem nodup_map_id_sortTasks {l : List Task}
    (h : (l.map Task._id).Nodup) : ((sortTasks l).map Task._id).Nodup :=
  (((sortTasks_perm l).map Task._id).nodup_iff).mpr h

/-! ## Lemmas about timeline-map lookup -/

theorem lookupTL_cons (k : Nat) (e : TLEntry) (rest : TL) (id : Nat) :
    lookupTL ((k, e) :: rest) id = if k = id then some e else lookupTL rest id := rfl

theorem lookupTL_mem {tl : TL} {id : Nat} {e : TLEntry}
    (h : lookupTL tl id = some e) : (id, e) ∈ tl := by
  induction tl with
  | nil => cases h
  | cons p rest ih =>
    obtain ⟨k, v⟩ := p
    rw [lookupTL_cons] at h
    by_cases hk : k = id
    · rw [if_pos hk] at h
      injection h with hv
      subst hk
      subst hv
      exact List.mem_cons_self _ _
    · rw [if_neg hk] at h
      exact List.mem_cons_of_mem _ (ih h)

/-- Adding an entry under a key absent from `tl` preserves all lookups that
succeed in `tl`. -/
theorem lookupTL_cons_fresh {tl : TL} {k : Nat} {e' : TLEntry}
    (hfresh : lookupTL tl k = none) {id : Nat} {v : TLEntry}
    (h : lookupTL tl id = some v) : lookupTL ((k, e') :: tl) id = some v := by
  rw [lookupTL_cons]
  split
  · rename_i hk
    subst hk
    rw [hfresh] at h
    cases h
  · exact h

/-! ## Lemmas about `maxPredEnd` and `endsOf` -/

theorem ite_lt_eq_max (a b : Nat) : (if a < b then b else a) = max a b := by
  by_cases h : a < b
  · rw [if_pos h, Nat.max_eq_right (Nat.le_of_lt h)]
  · rw [if_neg h, Nat.max_eq_left (Nat.le_of_not_lt h)]

/-- The source's running-maximum scan computes the fold of `max` over the
predecessor end dates collected by `endsOf`. -/
theorem maxPredEnd_eq_endsOf (tasks : List Task) (tl : TL) (cs : List String) (acc : Nat) :
    maxPredEnd tasks tl cs acc = (endsOf tasks tl cs).map (fun l => l.foldl max acc) := by
  induction cs generalizing acc with
  | nil => rfl
  | cons c rest ih =>
    cases hg : tasksByOrderGet tasks c with
    | none => simp [maxPredEnd, endsOf, hg]
    | some p =>
      cases hl : lookupTL tl p._id with
      | none => simp [maxPredEnd, endsOf, hg, hl]
      | some e =>
        simp only [maxPredEnd, endsOf, hg, hl]
        rw [ih]
        cases he : endsOf tasks tl rest with
        | none => rfl
        | some l => simp [List.foldl_cons, ite_lt_eq_max]

/-- Lookup-preserving extensions of the timeline map preserve `endsOf`. -/
theorem endsOf_mono {tasks : List Task} {tl tl2 : TL}
    (hext : ∀ id v, lookupTL tl id = some v → lookupTL tl2 id = some v)
    {cs : List String} {ends : List Nat}
    (h : endsOf tasks tl cs = some ends) : endsOf tasks tl2 cs = some ends := by
  induction cs generalizing ends with
  | nil => exact h
  | cons c rest ih =>
    cases hg : tasksByOrderGet tasks c with
    | none => rw [endsOf, hg] at h; cases h
    | some p =>
      simp only [endsOf, hg] at h ⊢
      cases hl : lookupTL tl p._id with
      | none => simp only [hl] at h; cases h
      | some e =>
        simp only [hl] at h
        simp only [hext _ _ hl]
        cases he : endsOf tasks tl rest with
        | none => rw [he] at h; cases h
        | some l =>
          rw [he] at h
          rw [ih he]
          exact h

theorem EntryCorrect_mono {tasks : List Task} {createdAt : Nat} {tl tl2 : TL}
    (hext : ∀ id v, lookupTL tl id = some v → lookupTL tl2 id = some v)
    {t : Task} {e : TLEntry}
    (h : EntryCorrect tasks createdAt tl t e) : EntryCorrect tasks createdAt tl2 t e := by
  obtain ⟨ends, h1, h2, h3⟩ := h
  exact ⟨ends, endsOf_mono hext h1, h2, h3⟩

/-- Every resolving code of a successful `endsOf` has a predecessor with a
timeline entry. -/
theorem endsOf_resolves {tasks : List Task} {tl : TL} {cs : List String} {ends : List Nat}
    (h : endsOf tasks tl cs = some ends) :
    ∀ c ∈ cs, ∃ p e, tasksByOrderGet tasks c = some p ∧ lookupTL tl p._id = some e := by
  induction cs generalizing ends with
  | nil => intro c hc; cases hc
  | cons c0 rest ih =>
    intro c hc
    cases hg : tasksByOrderGet tasks c0 with
    | none => simp only [endsOf, hg] at h; cases h
    | some p =>
      simp only [endsOf, hg] at h
      cases hl : lookupTL tl p._id with
      | none => simp only [hl] at h; cases h
      | some e0 =>
        simp only [hl] at h
        cases he : endsOf tasks tl rest with
        | none => rw [he] at h; cases h
        | some l =>
          rcases List.mem_cons.mp hc with hc0 | hcr
          · subst hc0
            exact ⟨p, e0, hg, hl⟩
          · exact ih he c hcr

/-- If every code of `cs` resolves to a task with a timeline entry, the
source's predecessor scan succeeds. -/
theorem maxPredEnd_isSome {tasks : List Task} {tl : TL} {cs : List String}
    (h : ∀ c ∈ cs, ∃ p e, tasksByOrderGet tasks c = some p ∧ lookupTL tl p._id = some e) :
    ∀ acc, (maxPredEnd tasks tl cs acc).isSome := by
  induction cs with
  | nil => intro acc; rfl
  | cons c rest ih =>
    intro acc
    obtain ⟨p, e, hg, hl⟩ := h c (List.mem_cons_self _ _)
    simp only [maxPredEnd, hg, hl]
    exact ih (fun c hc => h c (List.mem_cons_of_mem _ hc)) _

/-! ## Well-formedness of the computed timeline -/

/-- Every entry of a well-formed timeline map is correct for a unique source
task, relative to the *whole* map. -/
theorem WF_entries {tasks : List Task} {createdAt : Nat} {l : TL}
    (hwf : WF tasks createdAt l) :
    ∀ id e, lookupTL l id = some e →
      ∃ t, t ∈ tasks ∧ t._id = id ∧ EntryCorrect tasks createdAt l t e := by
  induction hwf with
  | nil => intro id e h; cases h
  | cons hmem hfresh hec _hwf ih =>
    rename_i t e0 tl
    intro id e h
    rw [lookupTL_cons] at h
    by_cases hk : t._id = id
    · rw [if_pos hk] at h
      injection h with hv
      subst hv
      exact ⟨t, hmem, hk, EntryCorrect_mono (fun _ _ => lookupTL_cons_fresh hfresh) hec⟩
    · rw [if_neg hk] at h
      obtain ⟨u, hu, hid, hecu⟩ := ih id e h
      exact ⟨u, hu, hid, EntryCorrect_mono (fun _ _ => lookupTL_cons_fresh hfresh) hecu⟩

/-! ## Lemmas about `uOver` (the `tasksToProcess` bookkeeping) -/

theorem uOver_nil (tl : TL) : uOver tl [] = 0 := rfl

theorem uOver_cons_resolved {tl : TL} {t : Task} {e : TLEntry} (l : List Task)
    (h : lookupTL tl t._id = some e) : uOver tl (t :: l) = uOver tl l := by
  simp [uOver, List.filter_cons, h]

theorem uOver_cons_unresolved {tl : TL} {t : Task} (l : List Task)
    (h : lookupTL tl t._id = none) : uOver tl (t :: l) = uOver tl l + 1 := by
  simp [uOver, List.filter_cons, h, Nat.add_comm]

theorem uOver_congr {tl tl2 : TL} {l : List Task}
    (h : ∀ t ∈ l, lookupTL tl t._id = lookupTL tl2 t._id) : uOver tl l = uOver tl2 l := by
  unfold uOver
  rw [List.filter_congr (fun t ht => by rw [h t ht])]

theorem uOver_eq_zero {tl : TL} {l : List Task} (h : uOver tl l = 0) :
    ∀ t ∈ l, (lookupTL tl t._id).isNone = false := by
  intro t ht
  cases hb : (lookupTL tl t._id).isNone with
  | false => rfl
  | true =>
    exfalso
    have hmem : t ∈ l.filter (fun t => (lookupTL tl t._id).isNone) :=
      List.mem_filter.mpr ⟨ht, hb⟩
    rw [List.eq_nil_of_length_eq_zero h] at hmem
    cases hmem

/-! ## Lemmas about a single pass -/

theorem passFold_extend (tasks : List Task) (createdAt : Nat) (l : List Task) :
    ∀ tl cnt id v, lookupTL tl id = some v →
      lookupTL (passFold tasks createdAt l tl cnt).1 id = some v := by
  induction l with
  | nil => intro tl cnt id v h; exact h
  | cons t rest ih =>
    intro tl cnt id v h
    cases hl : lookupTL tl t._id with
    | some e =>
      simp only [passFold, hl]
      exact ih tl cnt id v h
    | none =>
      cases hm : maxPredEnd tasks tl t.precedingTasks createdAt with
      | none =>
        simp only [passFold, hl, hm]
        exact ih tl cnt id v h
      | some s =>
        simp only [passFold, hl, hm]
        exact ih _ _ id v (lookupTL_cons_fresh hl h)

theorem passFold_outside (tasks : List Task) (createdAt : Nat) (l : List Task) :
    ∀ tl cnt id, id ∉ l.map Task._id →
      lookupTL (passFold tasks createdAt l tl cnt).1 id = lookupTL tl id := by
  induction l with
  | nil => intro tl cnt id _; rfl
  | cons t rest ih =>
    intro tl cnt id hid
    rw [List.map_cons] at hid
    have hne : t._id ≠ id := fun h => hid (h ▸ List.mem_cons_self _ _)
    have hrest : id ∉ rest.map Task._id := fun h => hid (List.mem_cons_of_mem _ h)
    cases hl : lookupTL tl t._id with
    | some e =>
      simp only [passFold, hl]
      exact ih tl cnt id hrest
    | none =>
      cases hm : maxPredEnd tasks tl t.precedingTasks createdAt with
      | none =>
        simp only [passFold, hl, hm]
        exact ih tl cnt id hrest
      | some s =>
        simp only [passFold, hl, hm]
        rw [ih _ _ id hrest, lookupTL_cons, if_neg hne]

theorem passFold_cnt_le (tasks : List Task) (createdAt : Nat) (l : List Task) :
    ∀ tl cnt, cnt ≤ (passFold tasks createdAt l tl cnt).2 := by
  induction l with
  | nil => intro tl cnt; exact Nat.le_refl cnt
  | cons t rest ih =>
    intro tl cnt
    cases hl : lookupTL tl t._id with
    | some e =>
      simp only [passFold, hl]
      exact ih tl cnt
    | none =>
      cases hm : maxPredEnd tasks tl t.precedingTasks createdAt with
      | none =>
        simp only [passFold, hl, hm]
        exact ih tl cnt
      | some s =>
        simp only [passFold, hl, hm]
        exact Nat.le_trans (Nat.le_succ cnt) (ih _ _)

/-- A pass resolves exactly as many tasks as it counts: counter plus
unresolved-count is invariant when the processed ids are distinct. -/
theorem passFold_count (tasks : List Task) (createdAt : Nat) (l : List Task) :
    ∀ tl cnt, (l.map Task._id).Nodup →
      (passFold tasks createdAt l tl cnt).2 + uOver (passFold tasks createdAt l tl cnt).1 l
        = cnt + uOver tl l := by
  induction l with
  | nil => intro tl cnt _; simp [passFold, uOver_nil]
  | cons t rest ih =>
    intro tl cnt hnd
    rw [List.map_cons, List.nodup_cons] at hnd
    obtain ⟨hnotin, hndrest⟩ := hnd
    have hner : ∀ u ∈ rest, t._id ≠ u._id := by
      intro u hu he
      exact hnotin (he ▸ List.mem_map_of_mem Task._id hu)
    cases hl : lookupTL tl t._id with
    | some e =>
      simp only [passFold, hl]
      have hres : lookupTL (passFold tasks createdAt rest tl cnt).1 t._id = some e :=
        passFold_extend tasks createdAt rest tl cnt t._id e hl
      rw [uOver_cons_resolved rest hres, uOver_cons_resolved rest hl]
      exact ih tl cnt hndrest
    | none =>
      cases hm : maxPredEnd tasks tl t.precedingTasks createdAt with
      | none =>
        simp only [passFold, hl, hm]
        have hout : lookupTL (passFold tasks createdAt rest tl cnt).1 t._id = none :=
          (passFold_outside tasks createdAt rest tl cnt t._id hnotin).trans hl
        rw [uOver_cons_unresolved rest hout, uOver_cons_unresolved rest hl]
        have := ih tl cnt hndrest
        omega
      | some s =>
        simp only [passFold, hl, hm]
        have hhit : lookupTL ((t._id, ⟨s, s + t.leadTime⟩) :: tl) t._id
            = some ⟨s, s + t.leadTime⟩ := by
          rw [lookupTL_cons, if_pos rfl]
        have hres : lookupTL
            (passFold tasks createdAt rest ((t._id, ⟨s, s + t.leadTime⟩) :: tl) (cnt + 1)).1
            t._id = some ⟨s, s + t.leadTime⟩ :=
          passFold_extend tasks createdAt rest _ _ _ _ hhit
        rw [uOver_cons_resolved rest hres, uOver_cons_unresolved rest hl]
        have huv : uOver ((t._id, ⟨s, s + t.leadTime⟩) :: tl) rest = uOver tl rest :=
          uOver_congr (fun u hu => by rw [lookupTL_cons, if_neg (hner u hu)])
        have := ih ((t._id, ⟨s, s + t.leadTime⟩) :: tl) (cnt + 1) hndrest
        rw [huv] at this
        omega

/-- A pass that made no progress changed nothing, and every task still
unresolved was uncalculable against the pass's input map. -/
theorem passFold_noprogress (tasks : List Task) (createdAt : Nat) (l : List Task) :
    ∀ tl cnt, (passFold tasks createdAt l tl cnt).2 = cnt →
      (passFold tasks createdAt l tl cnt).1 = tl ∧
      ∀ t ∈ l, lookupTL tl t._id = none →
        maxPredEnd tasks tl t.precedingTasks createdAt = none := by
  induction l with
  | nil => intro tl cnt _; exact ⟨rfl, fun t ht => absurd ht (List.not_mem_nil t)⟩
  | cons t rest ih =>
    intro tl cnt hcnt
    cases hl : lookupTL tl t._id with
    | some e =>
      simp only [passFold, hl] at hcnt ⊢
      obtain ⟨h1, h2⟩ := ih tl cnt hcnt
      refine ⟨h1, fun u hu hnone => ?_⟩
      rcases List.mem_cons.mp hu with h | h
      · subst h
        rw [hl] at hnone
        cases hnone
      · exact h2 u h hnone
    | none =>
      cases hm : maxPredEnd tasks tl t.precedingTasks createdAt with
      | none =>
        simp only [passFold, hl, hm] at hcnt ⊢
        obtain ⟨h1, h2⟩ := ih tl cnt hcnt
        refine ⟨h1, fun u hu hnone => ?_⟩
        rcases List.mem_cons.mp hu with h | h
        · subst h
          exact hm
        · exact h2 u h hnone
      | some s =>
        exfalso
        simp only [passFold, hl, hm] at hcnt
        have := passFold_cnt_le tasks createdAt rest
          ((t._id, ⟨s, s + t.leadTime⟩) :: tl) (cnt + 1)
        omega

/-- A pass preserves well-formedness of the timeline map. -/
theorem passFold_WF (tasks : List Task) (createdAt : Nat) (l : List Task) :
    ∀ tl cnt, (∀ t ∈ l, t ∈ tasks) → WF tasks createdAt tl →
      WF tasks createdAt (passFold tasks createdAt l tl cnt).1 := by
  induction l with
  | nil => intro tl cnt _ h; exact h
  | cons t rest ih =>
    intro tl cnt hsub hwf
    have hsub2 : ∀ u ∈ rest, u ∈ tasks := fun u hu => hsub u (List.mem_cons_of_mem _ hu)
    cases hl : lookupTL tl t._id with
    | some e =>
      simp only [passFold, hl]
      exact ih tl cnt hsub2 hwf
    | none =>
      cases hm : maxPredEnd tasks tl t.precedingTasks createdAt with
      | none =>
        simp only [passFold, hl, hm]
        exact ih tl cnt hsub2 hwf
      | some s =>
        simp only [passFold, hl, hm]
        apply ih _ _ hsub2
        refine WF.cons (hsub t (List.mem_cons_self _ _)) hl ?_ hwf
        have hme := maxPredEnd_eq_endsOf tasks tl t.precedingTasks createdAt
        rw [hm] at hme
        cases he : endsOf tasks tl t.precedingTasks with
        | none =>
          rw [he] at hme
          cases hme
        | some ends =>
          rw [he] at hme
          simp only [Option.map_some'] at hme
          injection hme with hs
          exact ⟨ends, he, hs, rfl⟩

/-! ## Lemmas about the iteration loop -/

theorem uOver_nilTL (l : List Task) : uOver [] l = l.length := by
  simp [uOver, lookupTL]

theorem timelineLoop_WF (tasks sorted : List Task) (createdAt : Nat)
    (hsub : ∀ t ∈ sorted, t ∈ tasks) :
    ∀ fuel toProcess tl, WF tasks createdAt tl →
      WF tasks createdAt (timelineLoop tasks sorted createdAt fuel toProcess tl) := by
  intro fuel
  induction fuel with
  | zero => intro toProcess tl h; exact h
  | succ n ih =>
    intro toProcess tl hwf
    simp only [timelineLoop]
    by_cases h0 : toProcess = 0
    · rw [if_pos h0]
      exact hwf
    · rw [if_neg h0]
      by_cases hp : (passFold tasks createdAt sorted tl 0).2 = 0
      · rw [if_pos hp]
        exact passFold_WF tasks createdAt sorted tl 0 hsub hwf
      · rw [if_neg hp]
        exact ih _ _ (passFold_WF tasks createdAt sorted tl 0 hsub hwf)

theorem timelineLoop_sat (tasks sorted : List Task) (createdAt : Nat)
    (hnd : (sorted.map Task._id).Nodup) :
    ∀ fuel toProcess tl, toProcess = uOver tl sorted → toProcess + 1 ≤ fuel →
      Saturated tasks createdAt sorted (timelineLoop tasks sorted createdAt fuel toProcess tl) := by
  intro fuel
  induction fuel with
  | zero =>
    intro toProcess tl _ hb
    exact absurd hb (by omega)
  | succ n ih =>
    intro toProcess tl hinv hb
    simp only [timelineLoop]
    by_cases h0 : toProcess = 0
    · rw [if_pos h0]
      intro t ht hnone
      exfalso
      have hz := @uOver_eq_zero tl sorted (by omega) t ht
      rw [hnone] at hz
      cases hz
    · rw [if_neg h0]
      by_cases hp : (passFold tasks createdAt sorted tl 0).2 = 0
      · rw [if_pos hp]
        obtain ⟨heq, hsat⟩ := passFold_noprogress tasks createdAt sorted tl 0 hp
        rw [heq]
        exact hsat
      · rw [if_neg hp]
        have hc := passFold_count tasks createdAt sorted tl 0 hnd
        exact ih _ _ (by omega) (by omega)

theorem timelineLoop_fuel_irrel (tasks sorted : List Task) (createdAt : Nat)
    (hnd : (sorted.map Task._id).Nodup) :
    ∀ toProcess f1 f2 tl, toProcess = uOver tl sorted →
      toProcess + 1 ≤ f1 → toProcess + 1 ≤ f2 →
      timelineLoop tasks sorted createdAt f1 toProcess tl
        = timelineLoop tasks sorted createdAt f2 toProcess tl := by
  intro toProcess
  induction toProcess using Nat.strong_induction_on with
  | _ toProcess ih =>
    intro f1 f2 tl hinv h1 h2
    cases f1 with
    | zero => exact absurd h1 (by omega)
    | succ n1 =>
      cases f2 with
      | zero => exact absurd h2 (by omega)
      | succ n2 =>
        simp only [timelineLoop]
        by_cases h0 : toProcess = 0
        · rw [if_pos h0, if_pos h0]
        · rw [if_neg h0, if_neg h0]
          by_cases hp : (passFold tasks createdAt sorted tl 0).2 = 0
          · rw [if_pos hp, if_pos hp]
          · rw [if_neg hp, if_neg hp]
            have hc := passFold_count tasks createdAt sorted tl 0 hnd
            exact ih (toProcess - (passFold tasks createdAt sorted tl 0).2) (by omega)
              (n1) (n2) _ (by omega) (by omega) (by omega)

/-! ## The computed timeline is well-formed and saturated -/

theorem calc_WF (tasks : List Task) (createdAt : Nat) :
    WF tasks createdAt (calculateReferenceTimeline tasks createdAt) := by
  unfold calculateReferenceTimeline calculateReferenceTimelineFuel
  by_cases he : tasks.isEmpty
  · rw [if_pos he]
    exact WF.nil
  · rw [if_neg he]
    exact timelineLoop_WF tasks (sortTasks tasks) createdAt
      (fun t ht => mem_sortTasks.mp ht) _ _ _ WF.nil

theorem calc_sat (tasks : List Task) (createdAt : Nat)
    (hnd : (tasks.map Task._id).Nodup) :
    Saturated tasks createdAt (sortTasks tasks) (calculateReferenceTimeline tasks createdAt) := by
  unfold calculateReferenceTimeline calculateReferenceTimelineFuel
  by_cases he : tasks.isEmpty
  · rw [if_pos he]
    have hnil : tasks = [] := List.isEmpty_iff.mp he
    subst hnil
    intro t ht _
    simp [sortTasks] at ht
  · rw [if_neg he]
    refine timelineLoop_sat tasks (sortTasks tasks) createdAt
      (nodup_map_id_sortTasks hnd) _ _ _ (uOver_nilTL _).symm ?_
    rw [length_sortTasks]
    omega

theorem calc_eq_fuel (tasks : List Task) (createdAt : Nat)
    (hnd : (tasks.map Task._id).Nodup) (extra : Nat) :
    calculateReferenceTimelineFuel tasks createdAt (tasks.length + 5 + extra)
      = calculateReferenceTimeline tasks createdAt := by
  unfold calculateReferenceTimeline calculateReferenceTimelineFuel
  by_cases he : tasks.isEmpty
  · rw [if_pos he, if_pos he]
  · rw [if_neg he, if_neg he]
    refine timelineLoop_fuel_irrel tasks (sortTasks tasks) createdAt
      (nodup_map_id_sortTasks hnd) _ _ _ _ (uOver_nilTL _).symm ?_ ?_ <;>
      rw [length_sortTasks] <;> omega

/-! ## Resolvability and stuck sets versus the computed map -/

/-- Against a saturated map, every fully resolvable task of the processed
list has an entry. -/
theorem resolvable_lookup_isSome {tasks : List Task} {createdAt : Nat}
    {sorted : List Task} {tl : TL}
    (hsat : Saturated tasks createdAt sorted tl)
    (hall : ∀ u ∈ tasks, u ∈ sorted)
    {t : Task} (hres : Resolvable tasks t) :
    t ∈ sorted → ∃ e, lookupTL tl t._id = some e := by
  induction hres with
  | intro hsome hrec ih =>
    rename_i t
    intro ht
    cases hl : lookupTL tl t._id with
    | some e => exact ⟨e, rfl⟩
    | none =>
      exfalso
      have hmax := hsat t ht hl
      have hentries : ∀ c ∈ t.precedingTasks,
          ∃ p e, tasksByOrderGet tasks c = some p ∧ lookupTL tl p._id = some e := by
        intro c hc
        cases hg : tasksByOrderGet tasks c with
        | none =>
          have hs := hsome c hc
          rw [hg] at hs
          cases hs
        | some p =>
          obtain ⟨e, hec⟩ := ih c hc p hg (hall p (tasksByOrderGet_mem hg).1)
          exact ⟨p, e, rfl, hec⟩
      have hs := maxPredEnd_isSome hentries createdAt
      rw [hmax] at hs
      cases hs

/-- No member of a stuck set ever enters a well-formed timeline map. -/
theorem WF_stuck_absent {tasks : List Task} {createdAt : Nat}
    (hnd : (tasks.map Task._id).Nodup) {S : List Task}
    (hsub : ∀ t ∈ S, t ∈ tasks) (hstuck : Stuck tasks S)
    {l : TL} (hwf : WF tasks createdAt l) :
    ∀ t ∈ S, lookupTL l t._id = none := by
  induction hwf with
  | nil => intro t _; rfl
  | cons hmem hfresh hec _hwf ih =>
    rename_i u e0 tl
    intro t htS
    rw [lookupTL_cons]
    by_cases hk : u._id = t._id
    · exfalso
      have hut : u = t := List.inj_on_of_nodup_map hnd hmem (hsub t htS) hk
      obtain ⟨c, hc, hclosed⟩ := hstuck u (hut ▸ htS)
      obtain ⟨ends, hends, _, _⟩ := hec
      obtain ⟨p, e', hg, hl⟩ := endsOf_resolves hends c hc
      obtain ⟨hp_mem, hp_ord⟩ := tasksByOrderGet_mem hg
      have hpS : p ∈ S := hclosed p hp_mem hp_ord
      have hnone := ih p hpS
      rw [hnone] at hl
      cases hl
    · rw [if_neg hk]
      exact ih t htS

/-! ## The timeline claims -/

/-- C1: every task with an entry in the map computed by
`calculateReferenceTimeline` has all its predecessor codes resolved to tasks
with entries, its start is the maximum of the season's `createdAt` and those
predecessors' end dates, and its end is start plus `leadTime` days; a task
with no predecessors starts at `createdAt` and ends at
`createdAt + leadTime`. -/
theorem claim1 (tasks : List Task) (createdAt : Nat)
    (hids : (tasks.map Task._id).Nodup) (t : Task) (ht : t ∈ tasks) (e : TLEntry)
    (he : lookupTL (calculateReferenceTimeline tasks createdAt) t._id = some e) :
    ∃ ends, endsOf tasks (calculateReferenceTimeline tasks createdAt) t.precedingTasks
        = some ends ∧
      e.start = ends.foldl max createdAt ∧
      e.end_ = e.start + t.leadTime ∧
      (t.precedingTasks = [] → e.start = createdAt ∧ e.end_ = createdAt + t.leadTime) := by
  obtain ⟨u, hu_mem, hu_id, hec⟩ := WF_entries (calc_WF tasks createdAt) t._id e he
  have hut : u = t := List.inj_on_of_nodup_map hids hu_mem ht hu_id
  subst hut
  obtain ⟨ends, h1, h2, h3⟩ := hec
  refine ⟨ends, h1, h2, h3, ?_⟩
  intro hnil
  rw [hnil, endsOf] at h1
  injection h1 with hh
  subst hh
  constructor
  · rw [h2]
    rfl
  · rw [h3, h2]
    rfl

/-- C1 witness: the spec's end-to-end example (createdAt 0, task A with lead
time 5 and no predecessors, task B with lead time 3 after A) evaluated
through `claim1` at task B. -/
theorem claim1_witness :
    ∃ ends,
      endsOf [{ _id := 2, order := "B", precedingTasks := ["A"], leadTime := 3 },
          { _id := 1, order := "A", leadTime := 5 }]
        (calculateReferenceTimeline
          [{ _id := 2, order := "B", precedingTasks := ["A"], leadTime := 3 },
            { _id := 1, order := "A", leadTime := 5 }] 0)
        ["A"] = some ends ∧
      (5 : Nat) = ends.foldl max 0 ∧
      (8 : Nat) = 5 + 3 ∧
      ((["A"] : List String) = [] → (5 : Nat) = 0 ∧ (8 : Nat) = 0 + 3) :=
  claim1
    [{ _id := 2, order := "B", precedingTasks := ["A"], leadTime := 3 },
      { _id := 1, order := "A", leadTime := 5 }] 0 (by decide)
    { _id := 2, order := "B", precedingTasks := ["A"], leadTime := 3 } (by decide)
    ⟨5, 8⟩ (by decide)

/-- C2: the resolver reaches its fixed point within `taskCount + 5` passes
(any extra fuel computes the same map — and the Lean model is a total
function, so no error is ever raised); every member of a stuck set (a
precedence cycle, a task naming a dangling code, or anything transitively
depending on either) is absent from the returned map; and every fully
resolvable task still receives an entry. -/
theorem claim2 (tasks : List Task) (createdAt : Nat)
    (hids : (tasks.map Task._id).Nodup)
    (S : List Task) (hsub : ∀ t ∈ S, t ∈ tasks) (hstuck : Stuck tasks S) :
    (∀ extra, calculateReferenceTimelineFuel tasks createdAt (tasks.length + 5 + extra)
        = calculateReferenceTimeline tasks createdAt) ∧
    (∀ t ∈ S, lookupTL (calculateReferenceTimeline tasks createdAt) t._id = none) ∧
    (∀ t ∈ tasks, Resolvable tasks t →
        ∃ e, lookupTL (calculateReferenceTimeline tasks createdAt) t._id = some e) := by
  refine ⟨fun extra => calc_eq_fuel tasks createdAt hids extra, ?_, ?_⟩
  · exact fun t ht => WF_stuck_absent hids hsub hstuck (calc_WF tasks createdAt) t ht
  · intro t ht hres
    exact resolvable_lookup_isSome (calc_sat tasks createdAt hids)
      (fun u hu => mem_sortTasks.mpr hu) hres (mem_sortTasks.mpr ht)

/-- C2 witness: a two-task cycle (C depends on D, D depends on C) next to an
independent task E: the cycle members are absent, E is resolved, and extra
iterations change nothing. -/
theorem claim2_witness :
    (∀ extra,
      calculateReferenceTimelineFuel
        [{ _id := 11, order := "C", precedingTasks := ["D"], leadTime := 1 },
          { _id := 12, order := "D", precedingTasks := ["C"], leadTime := 1 },
          { _id := 13, order := "E", leadTime := 2 }] 10
        (([{ _id := 11, order := "C", precedingTasks := ["D"], leadTime := 1 },
          { _id := 12, order := "D", precedingTasks := ["C"], leadTime := 1 },
          { _id := 13, order := "E", leadTime := 2 }] : List Task).length + 5 + extra)
        = calculateReferenceTimeline
          [{ _id := 11, order := "C", precedingTasks := ["D"], leadTime := 1 },
            { _id := 12, order := "D", precedingTasks := ["C"], leadTime := 1 },
            { _id := 13, order := "E", leadTime := 2 }] 10) ∧
    (∀ t ∈ [({ _id := 11, order := "C", precedingTasks := ["D"], leadTime := 1 } : Task),
        { _id := 12, order := "D", precedingTasks := ["C"], leadTime := 1 }],
      lookupTL (calculateReferenceTimeline
        [{ _id := 11, order := "C", precedingTasks := ["D"], leadTime := 1 },
          { _id := 12, order := "D", precedingTasks := ["C"], leadTime := 1 },
          { _id := 13, order := "E", leadTime := 2 }] 10) t._id = none) ∧
    (∀ t ∈ [({ _id := 11, order := "C", precedingTasks := ["D"], leadTime := 1 } : Task),
        { _id := 12, order := "D", precedingTasks := ["C"], leadTime := 1 },
        { _id := 13, order := "E", leadTime := 2 }],
      Resolvable [{ _id := 11, order := "C", precedingTasks := ["D"], leadTime := 1 },
          { _id := 12, order := "D", precedingTasks := ["C"], leadTime := 1 },
          { _id := 13, order := "E", leadTime := 2 }] t →
        ∃ e, lookupTL (calculateReferenceTimeline
          [{ _id := 11, order := "C", precedingTasks := ["D"], leadTime := 1 },
            { _id := 12, order := "D", precedingTasks := ["C"], leadTime := 1 },
            { _id := 13, order := "E", leadTime := 2 }] 10) t._id = some e) :=
  claim2
    [{ _id := 11, order := "C", precedingTasks := ["D"], leadTime := 1 },
      { _id := 12, order := "D", precedingTasks := ["C"], leadTime := 1 },
      { _id := 13, order := "E", leadTime := 2 }] 10 (by decide)
    [{ _id := 11, order := "C", precedingTasks := ["D"], leadTime := 1 },
      { _id := 12, order := "D", precedingTasks := ["C"], leadTime := 1 }]
    (by decide) (by unfold Stuck; decide)

end MelamineTimeline
